import Mathlib

/-!
Verification of the reading-extraction pipeline of `src/app.py`
(photo-upload dashboard): the number parser `_parse_numbers`, the OCR
wrapper `run_ocr`, the EXIF extraction `_exif_to_dict`, the upload
handler `upload_photo`, and the dashboard's recency query.

Strings are embedded as `List Char`; Python `float` values produced by
the parser are embedded as `ℚ` (every token the parser can produce has
at most two decimal digits, so the embedding is exact on the values the
claims mention).  The three regular expressions of `_parse_numbers` are
embedded as explicit backtracking matchers that enumerate candidate
matches in exactly the order Python's `re` engine tries them
(alternation left to right, greedy quantifiers longest first), and
`re.findall` is embedded as a left-to-right scan that restarts after
each non-overlapping match.
-/

/-- Python `\s` on the inputs considered here (ASCII whitespace). -/
def isSpaceChar (c : Char) : Bool :=
  c == ' ' || c == '\t' || c == '\n' || c == '\r' || c == '\x0b' || c == '\x0c'

/-- `text.replace(",", ".")` from `_parse_numbers` (line 93): both
arguments are single characters, so the replacement is per character. -/
def normalizeText (cs : List Char) : List Char :=
  cs.map (fun c => if c = ',' then '.' else c)

/-- All ways `\d{1,2}` can match a prefix of `cs`, as
(consumed, rest) pairs in the order Python's greedy engine tries them
(two digits before one digit). -/
def matchDigits12 (cs : List Char) : List (List Char × List Char) :=
  match cs with
  | [] => []
  | [c1] => if c1.isDigit then [([c1], [])] else []
  | c1 :: c2 :: rest =>
    if c1.isDigit then
      if c2.isDigit then [([c1, c2], rest), ([c1], c2 :: rest)]
      else [([c1], c2 :: rest)]
    else []

/-- All ways `\d{1,2}(?:\.\d{1,2})?` can match a prefix of `cs`, in
Python's backtracking order: integer-digit choice outermost (greedy),
then fractional part present (greedy) before absent. -/
def matchNum12 (cs : List Char) : List (List Char × List Char) :=
  (matchDigits12 cs).flatMap fun dr =>
    (match dr.2 with
     | c :: r2 =>
       if c = '.' then (matchDigits12 r2).map fun fr => (dr.1 ++ '.' :: fr.1, fr.2)
       else []
     | [] => []) ++ [dr]

/-- All ways `-?\d{1,2}(?:\.\d{1,2})?` can match a prefix of `cs`
(greedy `-?`: the sign-consuming alternative is tried first). -/
def matchSigned (cs : List Char) : List (List Char × List Char) :=
  (match cs with
   | c :: r =>
     if c = '-' then (matchNum12 r).map fun gr => ('-' :: gr.1, gr.2)
     else []
   | [] => []) ++ matchNum12 cs

/-- Match of the fallback pattern `-?\d{1,2}(?:\.\d{1,2})?` (line 105)
anchored at the start of `cs`: the first candidate in greedy order. -/
def matchNumAt (cs : List Char) : Option (List Char × List Char) :=
  (matchSigned cs).head?

/-- The continuation `\s*%` of the humidity pattern: greedy `\s*`
followed by a literal `%` (equivalent to skipping all whitespace and
requiring `%`, since `%` is not whitespace). -/
def skipSpacesPercent : List Char → Option (List Char)
  | [] => none
  | c :: r =>
    if isSpaceChar c then skipSpacesPercent r
    else if c = '%' then some r else none

/-- Match of the humidity pattern `(\d{1,2}(?:\.\d{1,2})?)\s*%`
(line 100) anchored at the start of `cs`; returns the captured group
and the rest after the whole match. -/
def matchHumAt (cs : List Char) : Option (List Char × List Char) :=
  (matchNum12 cs).findSome? fun gr =>
    (skipSpacesPercent gr.2).map fun r => (gr.1, r)

/-- Case-insensitive literal prefix strip (`re.I`); the pattern `p` is
given in lower case. -/
def stripPrefixCI : List Char → List Char → Option (List Char)
  | [], cs => some cs
  | _ :: _, [] => none
  | p :: ps, c :: cs => if c.toLower = p then stripPrefixCI ps cs else none

/-- The rests of `cs` after `(?:t|temp|temperatura)?` in the order the
alternatives are tried: `t`, `temp`, `temperatura`, then the empty
alternative of the greedy `?`. -/
def labelRests (cs : List Char) : List (List Char) :=
  (stripPrefixCI ['t'] cs).toList ++
  (stripPrefixCI ['t', 'e', 'm', 'p'] cs).toList ++
  (stripPrefixCI ['t', 'e', 'm', 'p', 'e', 'r', 'a', 't', 'u', 'r', 'a'] cs).toList ++
  [cs]

/-- `\s*[:=]?\s*(-?\d{1,2}(?:\.\d{1,2})?)` anchored at `cs`.  The only
successful backtracking path consumes all whitespace, optionally one
separator, all whitespace again, then the number (a shorter `\s*` or an
unused `[:=]?` leaves the number group to start on a space or separator
character, which fails). -/
def sepTarget (cs1 : List Char) : List Char :=
  match cs1 with
  | c :: r => if c = ':' ∨ c = '=' then r.dropWhile isSpaceChar else c :: r
  | [] => []

def matchSepNum (cs : List Char) : Option (List Char × List Char) :=
  (matchSigned (sepTarget (cs.dropWhile isSpaceChar))).head?

/-- Match of the temperature pattern
`(?:t|temp|temperatura)?\s*[:=]?\s*(-?\d{1,2}(?:\.\d{1,2})?)` (line 96,
`re.I`) anchored at the start of `cs`; returns the captured group and
the rest after the whole match (the group is the final element of the
pattern). -/
def matchTempAt (cs : List Char) : Option (List Char × List Char) :=
  (labelRests cs).findSome? matchSepNum

/-- A matcher consumes at least one character whenever it succeeds. -/
def Shrinks (m : List Char → Option (List Char × List Char)) : Prop :=
  ∀ cs g r, m cs = some (g, r) → r.length < cs.length

/-- Fuel-indexed scan of `re.findall`: at each position try the
anchored matcher; on success record the group and continue after the
match, otherwise advance one character.  Every successful match here
consumes at least one character, so fuel `cs.length` is exact. -/
def findallAux (m : List Char → Option (List Char × List Char)) :
    Nat → List Char → List (List Char)
  | 0, _ => []
  | _ + 1, [] => []
  | fuel + 1, c :: tl =>
    match m (c :: tl) with
    | some (g, r) => g :: findallAux m fuel r
    | none => findallAux m fuel tl

/-- `re.findall(pattern, text)` for a pattern with one capture group:
the list of captured groups of the non-overlapping matches, scanning
left to right. -/
def pyFindall (m : List Char → Option (List Char × List Char))
    (cs : List Char) : List (List Char) :=
  findallAux m cs.length cs

/-- Decimal digit string to `Nat` (`None` when empty or non-digit),
matching how `float` reads each digit block. -/
def digitsToNat? (cs : List Char) : Option Nat :=
  if cs.isEmpty then none
  else
    cs.foldl
      (fun acc c =>
        acc.bind fun n =>
          if c.isDigit then some (n * 10 + (c.toNat - '0'.toNat)) else none)
      (some 0)

/-- Python `float` on an unsigned token of the shape the three regexes
can produce (`digits` or `digits.digits`), valued in `ℚ`. -/
def parseUnsigned (cs : List Char) : Option ℚ :=
  match cs.dropWhile (fun c => c != '.') with
  | [] => (digitsToNat? (cs.takeWhile (fun c => c != '.'))).map fun n => (n : ℚ)
  | c :: frac =>
    if c = '.' then
      match digitsToNat? (cs.takeWhile (fun c => c != '.')), digitsToNat? frac with
      | some i, some f => some ((i : ℚ) + (f : ℚ) / ((10 : ℚ) ^ frac.length))
      | _, _ => none
    else none

/-- Python `float` on a possibly `-`-signed token, valued in `ℚ`;
`none` models `float` raising (the `except: pass` arms). -/
def parseFloat (cs : List Char) : Option ℚ :=
  match cs with
  | c :: rest =>
    if c = '-' then (parseUnsigned rest).map fun q => -q
    else parseUnsigned cs
  | [] => parseUnsigned cs

/-- Lines 96-99 of `_parse_numbers`: first group matched by the
temperature pattern, parsed (`None` when no match or `float` fails). -/
def tempFromPattern (text : List Char) : Option ℚ :=
  match pyFindall matchTempAt (normalizeText text) with
  | [] => none
  | g :: _ => parseFloat g

/-- Lines 100-103 of `_parse_numbers`: first group matched by the
humidity pattern, parsed (`None` when no match or `float` fails). -/
def humFromPattern (text : List Char) : Option ℚ :=
  match pyFindall matchHumAt (normalizeText text) with
  | [] => none
  | g :: _ => parseFloat g

/-- `_parse_numbers(text)` (lines 92-113): labelled temperature match,
independent humidity match, then the positional fallback over all
numeric tokens for whichever field is still unset. -/
def _parse_numbers (text : List Char) : Option ℚ × Option ℚ :=
  let temp := tempFromPattern text
  let hum := humFromPattern text
  if temp.isNone || hum.isNone then
    match pyFindall matchNumAt (normalizeText text) with
    | [] => (temp, hum)
    | n0 :: rest =>
      (if temp.isNone then parseFloat n0 else temp,
       match rest with
       | n1 :: _ => if hum.isNone then parseFloat n1 else hum
       | [] => hum)
  else (temp, hum)

/-! ## Images, OCR and EXIF -/

/-- A raw EXIF tag value as `img._getexif()` can yield it: a string, a
byte string, or a number. -/
inductive ExifVal where
  | str (s : List Char)
  | bytes (bs : List Nat)
  | num (n : Nat)
deriving DecidableEq

/-- A decoded image: RGB pixel rows plus the raw EXIF mapping
(`none` models `_getexif` being absent or returning `None`). -/
structure Img where
  pixels : List (List (Nat × Nat × Nat))
  exifRaw : Option (List (Nat × ExifVal))
deriving DecidableEq

def imgWidth (img : Img) : Nat := (img.pixels.headD []).length

def imgHeight (img : Img) : Nat := img.pixels.length

/-- `img.convert("L")` (PIL luminance, ITU-R 601-2). -/
def toGray (img : Img) : List (List Nat) :=
  img.pixels.map fun row =>
    row.map fun p => (p.1 * 299 + p.2.1 * 587 + p.2.2 * 114) / 1000

/-- `gray.point(lambda x: 255 if x > 150 else 0, mode="1")` (line 119). -/
def binarize (g : List (List Nat)) : List (List Nat) :=
  g.map fun row => row.map fun x => if x > 150 then 255 else 0

/-- Line 13: the import succeeds or fails, but either way the flag is
`False` ("OCR desativado para estabilidade no Windows"). -/
def OCR_AVAILABLE : Bool := false

/-- `run_ocr(img)` (lines 115-125).  The recognition backend
(`pytesseract.image_to_string`) is an external collaborator, embedded
as a function argument that may fail (`Except.error` models a raised
exception). -/
def run_ocr (ocrAvailable : Bool)
    (imageToString : List (List Nat) → Except Unit (List Char))
    (img : Img) : Option ℚ × Option ℚ :=
  if !ocrAvailable then (none, none)
  else
    match imageToString (binarize (toGray img)) with
    | .error _ => (none, none)
    | .ok text => _parse_numbers text

/-- Decimal digit representation of a `Nat` (for `str(k)` on numeric
EXIF tag keys and values). -/
def natToString (n : Nat) : List Char :=
  (Nat.toDigits 10 n)

/-- `bytes.decode(errors="ignore")` restricted to the ASCII range: the
bytes the claims exercise; invalid bytes are dropped, not raised on. -/
def bytesDecodeIgnore (bs : List Nat) : List Char :=
  (bs.filter fun b => b < 128).map fun b => Char.ofNat b

/-- The slice of PIL's `ExifTags.TAGS` table relevant to this program:
the two tag names `upload_photo` reads (`Make` is tag 271, `Model` is
tag 272).  Other numeric keys fall through to `str(k)` exactly as in
the source. -/
def TAGS (k : Nat) : Option (List Char) :=
  if k = 271 then some ('M' :: 'a' :: 'k' :: 'e' :: [])
  else if k = 272 then some ('M' :: 'o' :: 'd' :: 'e' :: 'l' :: [])
  else none

/-- `str(tag)` where `tag = ExifTags.TAGS.get(k, k)`. -/
def exifKey (k : Nat) : List Char :=
  match TAGS k with
  | some name => name
  | none => natToString k

/-- `str(v)` with the byte-decoding branch of lines 84-88. -/
def strOfExifVal : ExifVal → List Char
  | .str s => s
  | .bytes bs => bytesDecodeIgnore bs
  | .num n => natToString n

/-- Python dict assignment `res[key] = value`: overwrite when the key
exists, otherwise append. -/
def dictInsert (d : List (List Char × List Char)) (k v : List Char) :
    List (List Char × List Char) :=
  if d.any fun p => p.1 == k then
    d.map fun p => if p.1 == k then (k, v) else p
  else d ++ [(k, v)]

/-- Python `dict.get`. -/
def dictGet (d : List (List Char × List Char)) (k : List Char) :
    Option (List Char) :=
  (d.find? fun p => p.1 == k).map fun p => p.2

/-- `_exif_to_dict(img)` (lines 77-90): `{}` when `_getexif()` is
absent, `None`, or an empty ("falsy") mapping; otherwise tag names
mapped to stringified values. -/
def _exif_to_dict (img : Img) : List (List Char × List Char) :=
  match img.exifRaw with
  | none => []
  | some kvs =>
    if kvs.isEmpty then []
    else kvs.foldl (fun res kv => dictInsert res (exifKey kv.1) (strOfExifVal kv.2)) []

/-- Python `a or b` for an optional string `a`: `None` and `""` are
both falsy. -/
def pyStrOr (a : Option (List Char)) (b : List Char) : List Char :=
  match a with
  | some v => if v.isEmpty then b else v
  | none => b

/-- `exif.get("Model") or exif.get("Make") or ""` (line 179). -/
def deviceModelOf (exif : List (List Char × List Char)) : List Char :=
  pyStrOr (dictGet exif ('M' :: 'o' :: 'd' :: 'e' :: 'l' :: []))
    (pyStrOr (dictGet exif ('M' :: 'a' :: 'k' :: 'e' :: [])) [])

/-! ## The upload handler -/

/-- One row of the `photos` table (schema of `init_db`, lines 58-71).
`exif_json` is stored as `str(exif)` in the source; it is embedded as
the mapping itself. -/
structure PhotoRecord where
  taken_at : List Char
  filename : List Char
  sha256 : List Char
  width : Nat
  height : Nat
  exif_json : Option (List (List Char × List Char))
  ocr_temp_c : Option ℚ
  ocr_humidity : Option ℚ
  device_model : List Char
deriving DecidableEq

/-- A side effect of the upload handler, in the order performed. -/
inductive Effect where
  | fileWrite (path : List Char) (img : Img)
  | dbInsert (r : PhotoRecord)
deriving DecidableEq

/-- The handler's outcome: `HTTPException(400, ...)` or the redirect to
`/` with status 303. -/
inductive UploadResponse where
  | httpError (status : Nat) (detail : List Char)
  | redirect (url : List Char) (status : Nat)
deriving DecidableEq

/-- `photo.content_type.startswith("image/")` (line 167). -/
def startsWith : List Char → List Char → Bool
  | [], _ => true
  | _ :: _, [] => false
  | p :: ps, c :: cs => p == c && startsWith ps cs

/-- `f"{ts}_{sha[:8]}.jpg"` (line 174): the stored filename derived
from the second-granularity timestamp and the first 8 hex characters
of the content hash. -/
def upload_filename (ts sha : List Char) : List Char :=
  ts ++ ('_' :: sha.take 8) ++ ('.' :: 'j' :: 'p' :: 'g' :: [])

/-- `upload_photo` (lines 165-204).  External collaborators are
arguments: `hashHex` (sha256 hex digest of the raw bytes), `now_ts` /
`now_iso` (the two renderings of `datetime.now(APP_TZ)`), `decodeImg`
(`Image.open(...).convert("RGB")`), and `imageToString` (the OCR
backend).  The returned effect list holds the file write and the row
insert, in the order the source performs them; a rejected request
performs none. -/
def upload_photo (hashHex : List Nat → List Char) (now_ts now_iso : List Char)
    (decodeImg : List Nat → Img)
    (imageToString : List (List Nat) → Except Unit (List Char))
    (contentType : List Char) (raw : List Nat) :
    List Effect × UploadResponse :=
  if !startsWith ('i' :: 'm' :: 'a' :: 'g' :: 'e' :: '/' :: []) contentType then
    ([], .httpError 400 "Envie uma imagem".toList)
  else
    let sha := hashHex raw
    let fname := upload_filename now_ts sha
    let img := decodeImg raw
    let exif := _exif_to_dict img
    let device_model := deviceModelOf exif
    let th := run_ocr OCR_AVAILABLE imageToString img
    let record : PhotoRecord :=
      { taken_at := now_iso
        filename := fname
        sha256 := sha
        width := imgWidth img
        height := imgHeight img
        exif_json := if exif.isEmpty then none else some exif
        ocr_temp_c := th.1
        ocr_humidity := th.2
        device_model := device_model }
    ([.fileWrite fname img, .dbInsert record], .redirect ('/' :: []) 303)

/-- The rows inserted by a list of effects. -/
def dbInserts (effs : List Effect) : List PhotoRecord :=
  effs.filterMap fun e =>
    match e with
    | .dbInsert r => some r
    | _ => none

/-! ## The record store's recency query -/

/-- A persisted row together with its `AUTOINCREMENT` id. -/
structure StoredRow where
  id : Nat
  row : PhotoRecord
deriving DecidableEq

/-- Bytewise (BINARY-collation) `<` on TEXT values, as SQLite compares
the `taken_at` column. -/
def lexLt : List Char → List Char → Bool
  | [], [] => false
  | [], _ :: _ => true
  | _ :: _, [] => false
  | a :: as, b :: bs => if a < b then true else if b < a then false else lexLt as bs

/-- `SELECT * FROM photos ORDER BY taken_at DESC LIMIT 20` (line 146),
embedded by its SQL semantics: some permutation of the table sorted so
that `taken_at` never increases (SQLite fixes no order among rows with
equal `taken_at`), truncated to 20 rows. -/
def recentTableQuery (db res : List StoredRow) : Prop :=
  ∃ p : List StoredRow, p.Perm db ∧
    p.Pairwise (fun a b => lexLt a.row.taken_at b.row.taken_at = false) ∧
    res = p.take 20

/-! ## The humidity pattern as the specification words it -/

/-- The humidity search as the spec describes it for claim C2: a
1-2-digit number (optional 1-2 decimal digits) immediately followed by
a percent sign with no intervening characters; first occurrence wins.
This is the spec-side definition compared against `humFromPattern`;
the code's pattern additionally allows `\s*` before the `%`. -/
def specHumImmediateFirst : List Char → Option (List Char)
  | [] => none
  | c :: tl =>
    match (matchNum12 (c :: tl)).findSome?
        (fun gr =>
          match gr.2 with
          | '%' :: r => some (gr.1, r)
          | _ => none) with
    | some (g, _) => some g
    | none => specHumImmediateFirst tl

/-- Cutting a digit run into the successive 1-2-digit tokens the
greedy fallback pattern takes from it. -/
def digitPairs : List Char → List (List Char)
  | [] => []
  | [c] => [[c]]
  | c1 :: c2 :: rest => [c1, c2] :: digitPairs rest

/-- A record with every nullable field absent, used as payload for the
recency-query rows. -/
def blankRecord (ts : List Char) : PhotoRecord :=
  { taken_at := ts
    filename := []
    sha256 := []
    width := 0
    height := 0
    exif_json := none
    ocr_temp_c := none
    ocr_humidity := none
    device_model := [] }

/-- First-inserted row of the tie scenario: id 1. -/
def rowA : StoredRow := ⟨1, blankRecord "2025-01-01T00:00:00".toList⟩

/-- Second-inserted row of the tie scenario: id 2, equal `taken_at`. -/
def rowB : StoredRow := ⟨2, blankRecord "2025-01-01T00:00:00".toList⟩

/-! ## Generic lemmas about the findall scan -/

theorem mem_of_head?_eq_some {α : Type} {l : List α} {a : α}
    (h : l.head? = some a) : a ∈ l := by
  cases l with
  | nil => simp at h
  | cons x xs => simp at h; simp [h]

theorem length_dropWhile_le (p : Char → Bool) (l : List Char) :
    (l.dropWhile p).length ≤ l.length := by
  induction l with
  | nil => simp
  | cons c tl ih =>
    by_cases hc : p c
    · rw [List.dropWhile_cons, if_pos hc]; exact Nat.le_succ_of_le ih
    · rw [List.dropWhile_cons, if_neg hc]

theorem shrinks_nil {m : List Char → Option (List Char × List Char)}
    (hm : Shrinks m) : m [] = none := by
  cases hmc : m [] with
  | none => rfl
  | some gr =>
    obtain ⟨g, r⟩ := gr
    exact absurd (hm [] g r hmc) (by simp)

theorem findallAux_congr {m : List Char → Option (List Char × List Char)}
    (hm : Shrinks m) :
    ∀ f₁ f₂ cs, cs.length ≤ f₁ → cs.length ≤ f₂ →
      findallAux m f₁ cs = findallAux m f₂ cs := by
  intro f₁
  induction f₁ with
  | zero =>
    intro f₂ cs h₁ _
    have : cs = [] := List.length_eq_zero.mp (Nat.le_zero.mp h₁)
    subst this
    cases f₂ <;> rfl
  | succ f₁ ih =>
    intro f₂ cs h₁ h₂
    cases cs with
    | nil => cases f₂ <;> rfl
    | cons c tl =>
      cases f₂ with
      | zero => simp at h₂
      | succ f₂ =>
        show (match m (c :: tl) with
              | some (g, r) => g :: findallAux m f₁ r
              | none => findallAux m f₁ tl) =
             (match m (c :: tl) with
              | some (g, r) => g :: findallAux m f₂ r
              | none => findallAux m f₂ tl)
        cases hmc : m (c :: tl) with
        | some gr =>
          obtain ⟨g, r⟩ := gr
          have hr := hm _ _ _ hmc
          simp only [List.length_cons] at h₁ h₂ hr
          simp only [ih f₂ r (by omega) (by omega)]
        | none =>
          simp only [List.length_cons] at h₁ h₂
          simp only [ih f₂ tl (by omega) (by omega)]

theorem pyFindall_cons {m : List Char → Option (List Char × List Char)}
    (hm : Shrinks m) (c : Char) (tl : List Char) :
    pyFindall m (c :: tl) =
      match m (c :: tl) with
      | some (g, r) => g :: pyFindall m r
      | none => pyFindall m tl := by
  show findallAux m (c :: tl).length (c :: tl) = _
  simp only [List.length_cons]
  show (match m (c :: tl) with
        | some (g, r) => g :: findallAux m tl.length r
        | none => findallAux m tl.length tl) = _
  cases hmc : m (c :: tl) with
  | some gr =>
    obtain ⟨g, r⟩ := gr
    have hr := hm _ _ _ hmc
    simp only [List.length_cons] at hr
    simp only [pyFindall, findallAux_congr hm tl.length r.length r (by omega) le_rfl]
  | none => rfl

theorem pyFindall_head {m : List Char → Option (List Char × List Char)}
    (hm : Shrinks m) :
    ∀ (n : Nat) (cs : List Char), cs.length ≤ n →
      ∀ g gs, pyFindall m cs = g :: gs →
        ∃ i r, m (cs.drop i) = some (g, r) ∧ ∀ j < i, m (cs.drop j) = none := by
  intro n
  induction n with
  | zero =>
    intro cs h₁ g gs h
    have : cs = [] := List.length_eq_zero.mp (Nat.le_zero.mp h₁)
    subst this
    simp [pyFindall, findallAux] at h
  | succ n ih =>
    intro cs h₁ g gs h
    cases cs with
    | nil => simp [pyFindall, findallAux] at h
    | cons c tl =>
      rw [pyFindall_cons hm] at h
      cases hmc : m (c :: tl) with
      | some gr =>
        obtain ⟨g', r⟩ := gr
        rw [hmc] at h
        simp only [List.cons.injEq] at h
        refine ⟨0, r, ?_, ?_⟩
        · rw [List.drop_zero, hmc, h.1]
        · intro j hj; omega
      | none =>
        rw [hmc] at h
        simp only [List.length_cons] at h₁
        obtain ⟨i, r, hi, hlt⟩ := ih tl (by omega) g gs h
        refine ⟨i + 1, r, by simpa using hi, ?_⟩
        intro j hj
        cases j with
        | zero => simpa using hmc
        | succ k => simpa using hlt k (by omega)

theorem pyFindall_ne_nil {m : List Char → Option (List Char × List Char)}
    (hm : Shrinks m) :
    ∀ (n : Nat) (cs : List Char), cs.length ≤ n →
      ∀ i x, m (cs.drop i) = some x → pyFindall m cs ≠ [] := by
  intro n
  induction n with
  | zero =>
    intro cs h₁ i x hx
    have : cs = [] := List.length_eq_zero.mp (Nat.le_zero.mp h₁)
    subst this
    rw [List.drop_nil] at hx
    rw [shrinks_nil hm] at hx
    exact absurd hx (by simp)
  | succ n ih =>
    intro cs h₁ i x hx
    cases cs with
    | nil =>
      rw [List.drop_nil] at hx
      rw [shrinks_nil hm] at hx
      exact absurd hx (by simp)
    | cons c tl =>
      rw [pyFindall_cons hm]
      cases hmc : m (c :: tl) with
      | some gr => obtain ⟨g, r⟩ := gr; simp
      | none =>
        cases i with
        | zero =>
          rw [List.drop_zero] at hx
          rw [hmc] at hx
          exact absurd hx (by simp)
        | succ k =>
          simp only [List.length_cons] at h₁
          rw [List.drop_succ_cons] at hx
          simpa using ih tl (by omega) k x hx

/-! ## Token shapes produced by the three patterns -/

/-- A block matched by `\d{1,2}`. -/
def DigitRun12 (d : List Char) : Prop :=
  d ≠ [] ∧ d.length ≤ 2 ∧ ∀ c ∈ d, c.isDigit

/-- A token matched by `\d{1,2}(?:\.\d{1,2})?`. -/
def NumToken (g : List Char) : Prop :=
  DigitRun12 g ∨ ∃ d f, DigitRun12 d ∧ DigitRun12 f ∧ g = d ++ '.' :: f

/-- A token matched by `-?\d{1,2}(?:\.\d{1,2})?`. -/
def SignedToken (g : List Char) : Prop :=
  NumToken g ∨ ∃ u, g = '-' :: u ∧ NumToken u

theorem matchDigits12_spec {cs d r : List Char}
    (h : (d, r) ∈ matchDigits12 cs) : cs = d ++ r ∧ DigitRun12 d := by
  match cs with
  | [] => simp [matchDigits12] at h
  | [c1] =>
    by_cases h1 : c1.isDigit
    · simp [matchDigits12, h1] at h
      obtain ⟨rfl, rfl⟩ := h
      exact ⟨by simp, by simp, by simp, by simpa using h1⟩
    · simp [matchDigits12, h1] at h
  | c1 :: c2 :: rest =>
    by_cases h1 : c1.isDigit
    · by_cases h2 : c2.isDigit
      · simp [matchDigits12, h1, h2] at h
        rcases h with ⟨rfl, rfl⟩ | ⟨rfl, rfl⟩
        · exact ⟨by simp, by simp, by simp, by simp [h1, h2]⟩
        · exact ⟨by simp, by simp, by simp, by simpa using h1⟩
      · simp [matchDigits12, h1, h2] at h
        obtain ⟨rfl, rfl⟩ := h
        exact ⟨by simp, by simp, by simp, by simpa using h1⟩
    · simp [matchDigits12, h1] at h

theorem matchDigits12_self_mem {d : List Char} (hd : DigitRun12 d)
    (r : List Char) : (d, r) ∈ matchDigits12 (d ++ r) := by
  obtain ⟨hne, hlen, hdig⟩ := hd
  match d, hne with
  | [c1], _ =>
    have h1 : c1.isDigit := hdig c1 (by simp)
    cases r with
    | nil => simp [matchDigits12, h1]
    | cons c2 r' =>
      by_cases h2 : c2.isDigit <;> simp [matchDigits12, h1, h2]
  | [c1, c2], _ =>
    have h1 : c1.isDigit := hdig c1 (by simp)
    have h2 : c2.isDigit := hdig c2 (by simp)
    simp [matchDigits12, h1, h2]
  | c1 :: c2 :: c3 :: t, _ => simp at hlen

theorem matchNum12_spec {cs g r : List Char}
    (h : (g, r) ∈ matchNum12 cs) : cs = g ++ r ∧ NumToken g := by
  unfold matchNum12 at h
  rw [List.mem_flatMap] at h
  obtain ⟨⟨d, rest⟩, hdr, hmem⟩ := h
  obtain ⟨hcs, hdrun⟩ := matchDigits12_spec hdr
  rw [List.mem_append] at hmem
  rcases hmem with hfrac | hself
  · cases rest with
    | nil => simp at hfrac
    | cons c r2 =>
      simp only at hfrac
      by_cases hc : c = '.'
      · rw [if_pos hc] at hfrac
        rw [List.mem_map] at hfrac
        obtain ⟨⟨f, rf⟩, hfmem, heq⟩ := hfrac
        obtain ⟨hr2, hfrun⟩ := matchDigits12_spec hfmem
        simp only [Prod.mk.injEq] at heq
        obtain ⟨rfl, rfl⟩ := heq
        subst hc
        constructor
        · rw [hcs, hr2]; simp
        · exact Or.inr ⟨d, f, hdrun, hfrun, rfl⟩
      · rw [if_neg hc] at hfrac; simp at hfrac
  · simp only [List.mem_singleton, Prod.mk.injEq] at hself
    obtain ⟨rfl, rfl⟩ := hself
    exact ⟨hcs, Or.inl hdrun⟩

theorem matchNum12_self_mem {g : List Char} (hg : NumToken g)
    (r : List Char) : (g, r) ∈ matchNum12 (g ++ r) := by
  unfold matchNum12
  rw [List.mem_flatMap]
  rcases hg with hd | ⟨d, f, hdr, hfr, rfl⟩
  · exact ⟨(g, r), matchDigits12_self_mem hd r, by simp⟩
  · refine ⟨(d, '.' :: (f ++ r)), ?_, ?_⟩
    · have heq : d ++ '.' :: f ++ r = d ++ ('.' :: (f ++ r)) := by simp
      rw [heq]
      exact matchDigits12_self_mem hdr _
    · rw [List.mem_append]
      left
      simp only [if_pos rfl, List.mem_map, if_true]
      exact ⟨(f, r), matchDigits12_self_mem hfr r, rfl⟩

theorem matchSigned_spec {cs g r : List Char}
    (h : (g, r) ∈ matchSigned cs) : cs = g ++ r ∧ SignedToken g := by
  unfold matchSigned at h
  rw [List.mem_append] at h
  rcases h with hneg | hpos
  · cases cs with
    | nil => simp at hneg
    | cons c cs' =>
      simp only at hneg
      by_cases hc : c = '-'
      · rw [if_pos hc] at hneg
        rw [List.mem_map] at hneg
        obtain ⟨⟨u, rest⟩, humem, heq⟩ := hneg
        obtain ⟨hcs', hutok⟩ := matchNum12_spec humem
        simp only [Prod.mk.injEq] at heq
        obtain ⟨rfl, rfl⟩ := heq
        subst hc
        exact ⟨by rw [hcs']; simp, Or.inr ⟨u, rfl, hutok⟩⟩
      · rw [if_neg hc] at hneg; simp at hneg
  · obtain ⟨hcs, htok⟩ := matchNum12_spec hpos
    exact ⟨hcs, Or.inl htok⟩

theorem numToken_ne_nil {g : List Char} (hg : NumToken g) : g ≠ [] := by
  rcases hg with ⟨hne, _, _⟩ | ⟨d, f, ⟨hdne, _, _⟩, _, rfl⟩
  · exact hne
  · cases d with
    | nil => exact absurd rfl hdne
    | cons c t => simp

theorem signedToken_ne_nil {g : List Char} (hg : SignedToken g) : g ≠ [] := by
  rcases hg with htok | ⟨u, rfl, _⟩
  · exact numToken_ne_nil htok
  · simp

/-! ## Soundness and completeness of the anchored matchers -/

theorem skipSpacesPercent_sound :
    ∀ {cs r : List Char}, skipSpacesPercent cs = some r →
      ∃ ws, cs = ws ++ '%' :: r ∧ ∀ c ∈ ws, isSpaceChar c := by
  intro cs
  induction cs with
  | nil => intro r h; simp [skipSpacesPercent] at h
  | cons c tl ih =>
    intro r h
    by_cases hsp : isSpaceChar c
    · rw [skipSpacesPercent, if_pos hsp] at h
      obtain ⟨ws, rfl, hws⟩ := ih h
      refine ⟨c :: ws, rfl, ?_⟩
      intro x hx
      rcases List.mem_cons.mp hx with rfl | hx
      · exact hsp
      · exact hws x hx
    · by_cases hpc : c = '%'
      · rw [skipSpacesPercent, if_neg hsp, if_pos hpc] at h
        obtain rfl := Option.some.inj h
        exact ⟨[], by rw [hpc]; rfl, by simp⟩
      · rw [skipSpacesPercent, if_neg hsp, if_neg hpc] at h
        exact absurd h (by simp)

theorem skipSpacesPercent_complete :
    ∀ {ws : List Char}, (∀ c ∈ ws, isSpaceChar c) → ∀ (r : List Char),
      skipSpacesPercent (ws ++ '%' :: r) = some r := by
  intro ws
  induction ws with
  | nil =>
    intro _ r
    rw [List.nil_append, skipSpacesPercent, if_neg (by decide), if_pos rfl]
  | cons c tl ih =>
    intro hws r
    rw [List.cons_append, skipSpacesPercent, if_pos (hws c (by simp))]
    exact ih (fun x hx => hws x (by simp [hx])) r

theorem matchHumAt_sound {cs g r : List Char}
    (h : matchHumAt cs = some (g, r)) :
    ∃ ws, cs = g ++ ws ++ '%' :: r ∧ NumToken g ∧ ∀ c ∈ ws, isSpaceChar c := by
  unfold matchHumAt at h
  obtain ⟨⟨g', rest⟩, hmem, hf⟩ := List.exists_of_findSome?_eq_some h
  simp only at hf
  cases hsp : skipSpacesPercent rest with
  | none => rw [hsp] at hf; simp at hf
  | some r' =>
    rw [hsp] at hf
    simp only [Option.map_some', Option.some.injEq, Prod.mk.injEq] at hf
    obtain ⟨rfl, rfl⟩ := hf
    obtain ⟨hcs, htok⟩ := matchNum12_spec hmem
    obtain ⟨ws, rfl, hws⟩ := skipSpacesPercent_sound hsp
    exact ⟨ws, by rw [hcs]; simp, htok, hws⟩

theorem matchHumAt_complete (g ws rest : List Char) (hg : NumToken g)
    (hws : ∀ c ∈ ws, isSpaceChar c) :
    (matchHumAt (g ++ ws ++ '%' :: rest)).isSome := by
  have hmem : (g, ws ++ '%' :: rest) ∈ matchNum12 (g ++ ws ++ '%' :: rest) := by
    have := matchNum12_self_mem hg (ws ++ '%' :: rest)
    simpa [List.append_assoc] using this
  unfold matchHumAt
  cases hfs : (matchNum12 (g ++ ws ++ '%' :: rest)).findSome?
      (fun gr => (skipSpacesPercent gr.2).map fun r => (gr.1, r)) with
  | some x => simp
  | none =>
    rw [List.findSome?_eq_none_iff] at hfs
    have hx := hfs _ hmem
    simp only at hx
    rw [skipSpacesPercent_complete hws rest] at hx
    simp at hx

theorem matchHumAt_shrinks : Shrinks matchHumAt := by
  intro cs g r h
  obtain ⟨ws, rfl, _, _⟩ := matchHumAt_sound h
  simp only [List.length_append, List.length_cons]
  omega

theorem matchNumAt_sound {cs g r : List Char}
    (h : matchNumAt cs = some (g, r)) : cs = g ++ r ∧ SignedToken g :=
  matchSigned_spec (mem_of_head?_eq_some h)

theorem matchNumAt_shrinks : Shrinks matchNumAt := by
  intro cs g r h
  obtain ⟨rfl, htok⟩ := matchNumAt_sound h
  have := signedToken_ne_nil htok
  cases g with
  | nil => exact absurd rfl this
  | cons c t =>
    simp only [List.length_append, List.length_cons]
    omega

theorem stripPrefixCI_length :
    ∀ {p cs r : List Char}, stripPrefixCI p cs = some r → r.length ≤ cs.length := by
  intro p
  induction p with
  | nil =>
    intro cs r h
    rw [stripPrefixCI] at h
    obtain rfl := Option.some.inj h
    exact le_rfl
  | cons a ps ih =>
    intro cs r h
    cases cs with
    | nil => rw [stripPrefixCI] at h; exact absurd h (by simp)
    | cons c tl =>
      by_cases hc : c.toLower = a
      · rw [stripPrefixCI, if_pos hc] at h
        exact le_trans (ih h) (by simp)
      · rw [stripPrefixCI, if_neg hc] at h
        exact absurd h (by simp)

theorem sepTarget_length (l : List Char) : (sepTarget l).length ≤ l.length := by
  cases l with
  | nil => exact le_rfl
  | cons c r =>
    show (if c = ':' ∨ c = '=' then r.dropWhile isSpaceChar else c :: r).length ≤ (c :: r).length
    by_cases hc : c = ':' ∨ c = '='
    · rw [if_pos hc]
      exact le_trans (length_dropWhile_le _ _) (by simp)
    · rw [if_neg hc]

theorem matchSepNum_sound {cs g r : List Char}
    (h : matchSepNum cs = some (g, r)) : r.length < cs.length ∧ SignedToken g := by
  obtain ⟨hc2, htok⟩ := matchSigned_spec (mem_of_head?_eq_some h)
  have h1 : (sepTarget (cs.dropWhile isSpaceChar)).length ≤ cs.length :=
    le_trans (sepTarget_length _) (length_dropWhile_le _ _)
  have hglen : 1 ≤ g.length := by
    have hne := signedToken_ne_nil htok
    cases g with
    | nil => exact absurd rfl hne
    | cons a t => simp
  have h2 := congrArg List.length hc2
  simp only [List.length_append] at h2
  exact ⟨by omega, htok⟩

theorem matchTempAt_sound {cs g r : List Char}
    (h : matchTempAt cs = some (g, r)) : r.length < cs.length ∧ SignedToken g := by
  unfold matchTempAt at h
  obtain ⟨l, hlmem, hl⟩ := List.exists_of_findSome?_eq_some h
  have hllen : l.length ≤ cs.length := by
    unfold labelRests at hlmem
    simp only [List.mem_append, List.mem_singleton] at hlmem
    rcases hlmem with ((hm | hm) | hm) | rfl
    · cases hst : stripPrefixCI ['t'] cs with
      | none => rw [hst] at hm; simp at hm
      | some x =>
        rw [hst] at hm; simp at hm; subst hm; exact stripPrefixCI_length hst
    · cases hst : stripPrefixCI ['t', 'e', 'm', 'p'] cs with
      | none => rw [hst] at hm; simp at hm
      | some x =>
        rw [hst] at hm; simp at hm; subst hm; exact stripPrefixCI_length hst
    · cases hst : stripPrefixCI ['t', 'e', 'm', 'p', 'e', 'r', 'a', 't', 'u', 'r', 'a'] cs with
      | none => rw [hst] at hm; simp at hm
      | some x =>
        rw [hst] at hm; simp at hm; subst hm; exact stripPrefixCI_length hst
    · exact le_rfl
  obtain ⟨hlt, htok⟩ := matchSepNum_sound hl
  exact ⟨by omega, htok⟩

theorem matchTempAt_shrinks : Shrinks matchTempAt := by
  intro cs g r h
  exact (matchTempAt_sound h).1

/-! ## float() succeeds on every token the patterns can produce -/

theorem digit_bne_dot {c : Char} (h : c.isDigit) : (c != '.') = true :=
  bne_iff_ne.mpr fun he => absurd (he ▸ h) (by decide)

theorem digit_ne_minus {c : Char} (h : c.isDigit) : ¬(c = '-') :=
  fun he => absurd (he ▸ h) (by decide)

theorem takeWhile_all {p : Char → Bool} :
    ∀ {l : List Char}, (∀ c ∈ l, p c) → l.takeWhile p = l := by
  intro l
  induction l with
  | nil => intro _; rfl
  | cons c tl ih =>
    intro h
    rw [List.takeWhile_cons, if_pos (h c (by simp))]
    rw [ih fun x hx => h x (by simp [hx])]

theorem dropWhile_all {p : Char → Bool} :
    ∀ {l : List Char}, (∀ c ∈ l, p c) → l.dropWhile p = [] := by
  intro l
  induction l with
  | nil => intro _; rfl
  | cons c tl ih =>
    intro h
    rw [List.dropWhile_cons, if_pos (h c (by simp))]
    exact ih fun x hx => h x (by simp [hx])

theorem takeWhile_append_cons {p : Char → Bool} :
    ∀ {d : List Char}, (∀ c ∈ d, p c) → ∀ (x : Char), p x = false → ∀ (t : List Char),
      (d ++ x :: t).takeWhile p = d ∧ (d ++ x :: t).dropWhile p = x :: t := by
  intro d
  induction d with
  | nil =>
    intro _ x hx t
    constructor
    · rw [List.nil_append, List.takeWhile_cons, if_neg (by simp [hx])]
    · rw [List.nil_append, List.dropWhile_cons, if_neg (by simp [hx])]
  | cons c tl ih =>
    intro hd x hx t
    obtain ⟨ih1, ih2⟩ := ih (fun a ha => hd a (by simp [ha])) x hx t
    constructor
    · rw [List.cons_append, List.takeWhile_cons, if_pos (hd c (by simp)), ih1]
    · rw [List.cons_append, List.dropWhile_cons, if_pos (hd c (by simp)), ih2]

theorem digitsToNat?_isSome {cs : List Char} (hne : cs ≠ [])
    (hdig : ∀ c ∈ cs, c.isDigit) : (digitsToNat? cs).isSome := by
  unfold digitsToNat?
  rw [if_neg (by simpa using hne)]
  suffices h : ∀ (l : List Char), (∀ c ∈ l, c.isDigit) → ∀ (n : Nat),
      (l.foldl
        (fun acc c =>
          acc.bind fun n =>
            if c.isDigit then some (n * 10 + (c.toNat - '0'.toNat)) else none)
        (some n)).isSome by
    exact h cs hdig 0
  intro l
  induction l with
  | nil => intro _ n; simp
  | cons c tl ih =>
    intro h n
    rw [List.foldl_cons]
    have hstep : ((some n).bind fun m =>
        if c.isDigit then some (m * 10 + (c.toNat - '0'.toNat)) else none) =
        some (n * 10 + (c.toNat - '0'.toNat)) := by
      simp [h c (by simp)]
    rw [hstep]
    exact ih (fun x hx => h x (by simp [hx])) _

theorem NumToken.head_digit {c : Char} {t : List Char}
    (hg : NumToken (c :: t)) : c.isDigit := by
  rcases hg with ⟨_, _, hdig⟩ | ⟨d, f, ⟨hdne, _, hddig⟩, _, heq⟩
  · exact hdig c (by simp)
  · cases d with
    | nil => exact absurd rfl hdne
    | cons a d' =>
      rw [List.cons_append] at heq
      injection heq with h1 h2
      subst h1
      exact hddig c (by simp)

theorem parseUnsigned_isSome {g : List Char} (hg : NumToken g) :
    (parseUnsigned g).isSome := by
  rcases hg with ⟨hne, _, hdig⟩ | ⟨d, f, ⟨hdne, _, hddig⟩, ⟨hfne, _, hfdig⟩, rfl⟩
  · have hall : ∀ c ∈ g, ((fun c => c != '.') c) = true :=
      fun c hc => digit_bne_dot (hdig c hc)
    unfold parseUnsigned
    rw [dropWhile_all hall, takeWhile_all hall]
    obtain ⟨n, hn⟩ := Option.isSome_iff_exists.mp (digitsToNat?_isSome hne hdig)
    rw [hn]
    rfl
  · have hdall : ∀ c ∈ d, ((fun c => c != '.') c) = true :=
      fun c hc => digit_bne_dot (hddig c hc)
    have hsplit := takeWhile_append_cons hdall '.' (by simp) f
    unfold parseUnsigned
    rw [hsplit.1, hsplit.2]
    obtain ⟨i, hi⟩ := Option.isSome_iff_exists.mp (digitsToNat?_isSome hdne hddig)
    obtain ⟨j, hj⟩ := Option.isSome_iff_exists.mp (digitsToNat?_isSome hfne hfdig)
    simp only [if_pos rfl, hi, hj]
    rfl

theorem parseFloat_isSome {g : List Char} (hg : SignedToken g) :
    (parseFloat g).isSome := by
  rcases hg with htok | ⟨u, rfl, hu⟩
  · cases g with
    | nil => exact absurd rfl (numToken_ne_nil htok)
    | cons c t =>
      show ((if c = '-' then Option.map (fun q => -q) (parseUnsigned t)
             else parseUnsigned (c :: t)).isSome)
      rw [if_neg (digit_ne_minus htok.head_digit)]
      exact parseUnsigned_isSome htok
  · show ((if ('-' : Char) = '-' then Option.map (fun q => -q) (parseUnsigned u)
           else parseUnsigned ('-' :: u)).isSome)
    rw [if_pos rfl]
    obtain ⟨q, hq⟩ := Option.isSome_iff_exists.mp (parseUnsigned_isSome hu)
    rw [hq]
    rfl

/-! ## Claim theorems -/

/-- C1: for every input string `_parse_numbers` is total (the embedding
is a Lean function) and its result is one of the four shapes
`(None, None)`, `(T, None)`, `(None, H)`, `(T, H)`. -/
theorem parse_numbers_result_shape (text : List Char) :
    _parse_numbers text = (none, none) ∨
    (∃ t, _parse_numbers text = (some t, none)) ∨
    (∃ h, _parse_numbers text = (none, some h)) ∨
    (∃ t h, _parse_numbers text = (some t, some h)) := by
  cases hp : _parse_numbers text with
  | mk t h =>
    cases t with
    | none =>
      cases h with
      | none => exact Or.inl rfl
      | some hv => exact Or.inr (Or.inr (Or.inl ⟨hv, rfl⟩))
    | some tv =>
      cases h with
      | none => exact Or.inr (Or.inl ⟨tv, rfl⟩)
      | some hv => exact Or.inr (Or.inr (Or.inr ⟨tv, hv, rfl⟩))

/-- C3: on `"27 55"` the parser returns temperature 27 and humidity 55;
the humidity-pattern step itself finds nothing (no percent sign), so
the humidity comes from the positional fallback. -/
theorem parse_numbers_27_55 :
    _parse_numbers "27 55".toList = (some 27, some 55) ∧
    humFromPattern "27 55".toList = none := by
  constructor <;>
    simp +decide [_parse_numbers, tempFromPattern, humFromPattern, normalizeText, pyFindall,
      findallAux, matchTempAt, matchHumAt, matchNumAt, matchSepNum, sepTarget, labelRests,
      stripPrefixCI, matchSigned, matchNum12, matchDigits12, skipSpacesPercent, isSpaceChar,
      parseFloat, parseUnsigned, digitsToNat?]

/-- C6: an upload whose declared content type does not start with
`image/` is rejected with HTTP 400 and performs no side effect (the
effect list of the handler is empty). -/
theorem upload_rejects_non_image (hashHex : List Nat → List Char)
    (now_ts now_iso : List Char) (decodeImg : List Nat → Img)
    (imageToString : List (List Nat) → Except Unit (List Char))
    (contentType : List Char) (raw : List Nat)
    (hct : startsWith ('i' :: 'm' :: 'a' :: 'g' :: 'e' :: '/' :: []) contentType = false) :
    upload_photo hashHex now_ts now_iso decodeImg imageToString contentType raw =
      ([], .httpError 400 "Envie uma imagem".toList) := by
  unfold upload_photo
  rw [hct]
  rfl

/-- Witness for C6 at `contentType = "text/plain"`. -/
theorem upload_rejects_non_image_witness :
    upload_photo (fun _ => []) [] [] (fun _ => ⟨[], none⟩) (fun _ => .error ())
      "text/plain".toList [] = ([], .httpError 400 "Envie uma imagem".toList) :=
  upload_rejects_non_image (fun _ => []) [] [] (fun _ => ⟨[], none⟩)
    (fun _ => .error ()) "text/plain".toList [] (by decide)

/-- C7: `run_ocr` never propagates an error: when the backend is
unavailable or the transcription call raises, it returns
`(None, None)`. -/
theorem run_ocr_never_raises (avail : Bool)
    (imageToString : List (List Nat) → Except Unit (List Char)) (img : Img)
    (hfail : avail = false ∨ ∃ e, imageToString (binarize (toGray img)) = .error e) :
    run_ocr avail imageToString img = (none, none) := by
  rcases hfail with rfl | ⟨e, he⟩
  · rfl
  · cases avail with
    | false => rfl
    | true =>
      unfold run_ocr
      rw [he]
      rfl

/-- Witness for C7: the backend-unavailable case at a concrete image. -/
theorem run_ocr_never_raises_witness :
    run_ocr false (fun _ => .ok []) ⟨[], none⟩ = (none, none) :=
  run_ocr_never_raises false (fun _ => .ok []) ⟨[], none⟩ (Or.inl rfl)

/-- C4 is false as stated: two calls in the same second whose sha256
digests agree on the first 8 hex characters but differ afterwards get
the same filename. -/
theorem upload_filename_counterexample :
    "aaaaaaaa00000000000000000000000000000000000000000000000000000000".toList ≠
      "aaaaaaaa11111111111111111111111111111111111111111111111111111111".toList ∧
    upload_filename "20250101_120000".toList
        "aaaaaaaa00000000000000000000000000000000000000000000000000000000".toList =
      upload_filename "20250101_120000".toList
        "aaaaaaaa11111111111111111111111111111111111111111111111111111111".toList := by
  constructor
  · decide
  · decide

/-- C4 amended: filenames are distinct whenever the (fixed-length)
timestamp strings differ or the hashes differ within their first 8 hex
characters. -/
theorem upload_filename_distinct (ts1 sha1 ts2 sha2 : List Char)
    (hts : ts1.length = ts2.length)
    (hd : ts1 ≠ ts2 ∨ sha1.take 8 ≠ sha2.take 8) :
    upload_filename ts1 sha1 ≠ upload_filename ts2 sha2 := by
  intro heq
  unfold upload_filename at heq
  rw [List.append_assoc, List.append_assoc] at heq
  obtain ⟨h1, h2⟩ := List.append_inj heq hts
  rcases hd with hne | hne
  · exact hne h1
  · rw [List.cons_append, List.cons_append] at h2
    injection h2 with _ h3
    exact hne (List.append_inj' h3 rfl).1

/-- Witness for C4 amended: timestamps one second apart. -/
theorem upload_filename_distinct_witness :
    upload_filename "20250101_120000".toList
        "aaaaaaaa00000000000000000000000000000000000000000000000000000000".toList ≠
      upload_filename "20250101_120001".toList
        "aaaaaaaa00000000000000000000000000000000000000000000000000000000".toList :=
  upload_filename_distinct _ _ _ _ (by decide) (Or.inl (by decide))

/-- C5 is false as stated: on a table whose two rows carry equal
`taken_at`, the result listing the later insertion first satisfies
everything the SQL fixes (a `taken_at`-descending permutation cut to
20 rows), yet its tied rows are not in id-ascending order.  The query
has no secondary sort key, so SQLite is free to return this order. -/
theorem recent_query_tie_counterexample :
    recentTableQuery [rowA, rowB] [rowB, rowA] ∧
    ¬ List.Pairwise (fun a b => a.row.taken_at = b.row.taken_at → a.id < b.id)
        [rowB, rowA] := by
  constructor
  · exact ⟨[rowB, rowA], by decide, by decide, rfl⟩
  · decide

/-- C5 amended: the recent-table query returns at most 20 rows in
`taken_at`-descending order; the relative order of rows with equal
`taken_at` is left open. -/
theorem recent_query_le20_sorted (db res : List StoredRow)
    (hq : recentTableQuery db res) :
    res.length ≤ 20 ∧
    res.Pairwise (fun a b => lexLt a.row.taken_at b.row.taken_at = false) := by
  obtain ⟨p, hperm, hpw, rfl⟩ := hq
  exact ⟨List.length_take_le 20 p, hpw.sublist (List.take_sublist 20 p)⟩

/-- Witness for C5 amended on the one-row table. -/
theorem recent_query_le20_sorted_witness :
    ([rowA] : List StoredRow).length ≤ 20 ∧
    List.Pairwise (fun a b => lexLt a.row.taken_at b.row.taken_at = false) [rowA] :=
  recent_query_le20_sorted [rowA] [rowA] ⟨[rowA], by decide, by decide, rfl⟩

/-- C8 is false as stated: with a present-but-empty `Model` tag and
`Make = "Canon"`, the record's `device_model` is `"Canon"`, not the
`Model` value, because Python's `or` treats `""` as falsy. -/
theorem device_model_counterexample :
    dictGet (_exif_to_dict ⟨[], some [(272, .str []), (271, .str "Canon".toList)]⟩)
        ('M' :: 'o' :: 'd' :: 'e' :: 'l' :: []) = some [] ∧
    (dbInserts (upload_photo (fun _ => []) [] []
        (fun _ => ⟨[], some [(272, .str []), (271, .str "Canon".toList)]⟩)
        (fun _ => .error ()) "image/jpeg".toList []).1).map
        (fun r => r.device_model) = ["Canon".toList] := by
  constructor
  · decide
  · decide

/-- C8 amended: `device_model` is the `Model` value when present and
non-empty, else the `Make` value when present and non-empty, else the
empty string; an image with no EXIF data yields the empty mapping and
the empty string; and the inserted record carries exactly this value. -/
theorem device_model_spec :
    (∀ exif v, dictGet exif ('M' :: 'o' :: 'd' :: 'e' :: 'l' :: []) = some v →
       v ≠ [] → deviceModelOf exif = v) ∧
    (∀ exif w, (dictGet exif ('M' :: 'o' :: 'd' :: 'e' :: 'l' :: []) = none ∨
        dictGet exif ('M' :: 'o' :: 'd' :: 'e' :: 'l' :: []) = some []) →
       dictGet exif ('M' :: 'a' :: 'k' :: 'e' :: []) = some w → w ≠ [] →
       deviceModelOf exif = w) ∧
    (∀ exif, (dictGet exif ('M' :: 'o' :: 'd' :: 'e' :: 'l' :: []) = none ∨
        dictGet exif ('M' :: 'o' :: 'd' :: 'e' :: 'l' :: []) = some []) →
       (dictGet exif ('M' :: 'a' :: 'k' :: 'e' :: []) = none ∨
        dictGet exif ('M' :: 'a' :: 'k' :: 'e' :: []) = some []) →
       deviceModelOf exif = []) ∧
    (∀ img : Img, img.exifRaw = none →
       _exif_to_dict img = [] ∧ deviceModelOf (_exif_to_dict img) = []) ∧
    (∀ (hashHex : List Nat → List Char) (now_ts now_iso : List Char)
        (decodeImg : List Nat → Img)
        (imageToString : List (List Nat) → Except Unit (List Char))
        (contentType : List Char) (raw : List Nat),
       startsWith ('i' :: 'm' :: 'a' :: 'g' :: 'e' :: '/' :: []) contentType = true →
       (dbInserts (upload_photo hashHex now_ts now_iso decodeImg imageToString
           contentType raw).1).map (fun r => r.device_model) =
         [deviceModelOf (_exif_to_dict (decodeImg raw))]) := by
  refine ⟨?_, ?_, ?_, ?_, ?_⟩
  · intro exif v hv hne
    unfold deviceModelOf pyStrOr
    rw [hv]
    simp [List.isEmpty_iff, hne]
  · intro exif w hm hw hne
    unfold deviceModelOf pyStrOr
    rcases hm with hm | hm
    · rw [hm, hw]
      simp [List.isEmpty_iff, hne]
    · rw [hm, hw]
      simp [List.isEmpty_iff, hne]
  · intro exif hm hmk
    unfold deviceModelOf pyStrOr
    rcases hm with hm | hm <;> rcases hmk with hmk | hmk <;>
      rw [hm, hmk] <;> simp
  · intro img he
    have hd : _exif_to_dict img = [] := by unfold _exif_to_dict; rw [he]
    exact ⟨hd, by rw [hd]; rfl⟩
  · intro hashHex now_ts now_iso decodeImg imageToString contentType raw hct
    unfold upload_photo
    rw [hct]
    rfl

/-- Witness for C8 amended: a non-empty `Model` value is returned. -/
theorem device_model_spec_witness :
    deviceModelOf [(('M' :: 'o' :: 'd' :: 'e' :: 'l' :: []), ('X' :: []))] = ('X' :: []) :=
  device_model_spec.1 _ ('X' :: []) (by decide) (by decide)

theorem digit_ne_dotP {c : Char} (h : c.isDigit) : ¬(c = '.') :=
  fun he => absurd (he ▸ h) (by decide)

theorem matchNumAt_one_digit {c1 : Char} (h1 : c1.isDigit) :
    matchNumAt [c1] = some ([c1], []) := by
  unfold matchNumAt matchSigned matchNum12 matchDigits12
  simp [digit_ne_minus h1, h1]

theorem matchNumAt_two_digits {c1 c2 : Char} {rest : List Char}
    (h1 : c1.isDigit) (h2 : c2.isDigit) (hr : ∀ c ∈ rest, c.isDigit) :
    matchNumAt (c1 :: c2 :: rest) = some ([c1, c2], rest) := by
  unfold matchNumAt matchSigned matchNum12 matchDigits12
  cases rest with
  | nil => simp [digit_ne_minus h1, h1, h2]
  | cons c3 t =>
    have h3 : c3.isDigit := hr c3 (by simp)
    simp [digit_ne_minus h1, h1, h2, digit_ne_dotP h2, digit_ne_dotP h3]

theorem pyFindall_digits :
    ∀ (n : Nat) (cs : List Char), cs.length ≤ n → (∀ c ∈ cs, c.isDigit) →
      pyFindall matchNumAt cs = digitPairs cs := by
  intro n
  induction n with
  | zero =>
    intro cs h _
    have : cs = [] := List.length_eq_zero.mp (Nat.le_zero.mp h)
    subst this
    rfl
  | succ n ih =>
    intro cs hlen hall
    cases cs with
    | nil => rfl
    | cons c1 tl =>
      rw [pyFindall_cons matchNumAt_shrinks]
      cases tl with
      | nil =>
        rw [matchNumAt_one_digit (hall c1 (by simp))]
        rfl
      | cons c2 rest =>
        have h1 := hall c1 (by simp)
        have h2 := hall c2 (by simp)
        have hr : ∀ c ∈ rest, c.isDigit := fun c hc => hall c (by simp [hc])
        rw [matchNumAt_two_digits h1 h2 hr]
        show [c1, c2] :: pyFindall matchNumAt rest = digitPairs (c1 :: c2 :: rest)
        simp only [List.length_cons] at hlen
        rw [ih rest (by omega) hr]
        rfl

/-- C10: the 1-2-digit bound truncates rather than rejects: on an
all-digit run the fallback pattern's findall cuts it into successive
1-2-digit tokens, and on input `"2025"` the parser returns temperature
20 and humidity 25. -/
theorem digit_runs_truncated :
    (∀ cs : List Char, (∀ c ∈ cs, c.isDigit) →
      pyFindall matchNumAt cs = digitPairs cs) ∧
    _parse_numbers "2025".toList = (some 20, some 25) := by
  constructor
  · intro cs hall
    exact pyFindall_digits cs.length cs le_rfl hall
  · simp +decide [_parse_numbers, tempFromPattern, humFromPattern, normalizeText, pyFindall,
      findallAux, matchTempAt, matchHumAt, matchNumAt, matchSepNum, sepTarget, labelRests,
      stripPrefixCI, matchSigned, matchNum12, matchDigits12, skipSpacesPercent, isSpaceChar,
      parseFloat, parseUnsigned, digitsToNat?]

/-- Witness for C10 on the run `"2025"` itself. -/
theorem digit_runs_truncated_witness :
    pyFindall matchNumAt ('2' :: '0' :: '2' :: '5' :: []) =
      [('2' :: '0' :: []), ('2' :: '5' :: [])] :=
  digit_runs_truncated.1 ('2' :: '0' :: '2' :: '5' :: []) (by decide)

theorem parse_numbers_def (text : List Char) :
    _parse_numbers text =
      if (tempFromPattern text).isNone || (humFromPattern text).isNone then
        match pyFindall matchNumAt (normalizeText text) with
        | [] => (tempFromPattern text, humFromPattern text)
        | n0 :: rest =>
          (if (tempFromPattern text).isNone then parseFloat n0 else tempFromPattern text,
           match rest with
           | n1 :: _ =>
             if (humFromPattern text).isNone then parseFloat n1 else humFromPattern text
           | [] => humFromPattern text)
      else (tempFromPattern text, humFromPattern text) := rfl

/-- C9: whenever `_parse_numbers` returns a humidity it also returns a
temperature; the shape `(None, H)` is never produced, because a
humidity-pattern match contains a numeric token (so the fallback scan
is non-empty) and the fallback fills temperature from the first token
before assigning humidity. -/
theorem hum_implies_temp (text : List Char) (h : ℚ)
    (hh : (_parse_numbers text).2 = some h) :
    ∃ t, (_parse_numbers text).1 = some t := by
  cases ht : tempFromPattern text with
  | some t0 =>
    refine ⟨t0, ?_⟩
    rw [parse_numbers_def, ht]
    cases hhum : humFromPattern text with
    | some h0 => simp
    | none =>
      cases hnums : pyFindall matchNumAt (normalizeText text) with
      | nil => simp
      | cons n0 rest => simp
  | none =>
    cases hnums : pyFindall matchNumAt (normalizeText text) with
    | nil =>
      exfalso
      have hhum : humFromPattern text = some h := by
        rw [parse_numbers_def, ht, hnums] at hh
        simpa using hh
      cases hfa : pyFindall matchHumAt (normalizeText text) with
      | nil =>
        unfold humFromPattern at hhum
        rw [hfa] at hhum
        simp at hhum
      | cons g gs =>
        obtain ⟨i, r, hi, -⟩ := pyFindall_head matchHumAt_shrinks
          (normalizeText text).length _ le_rfl g gs hfa
        obtain ⟨ws, hdec, htok, hws⟩ := matchHumAt_sound hi
        have hmem : (g, ws ++ '%' :: r) ∈ matchSigned ((normalizeText text).drop i) := by
          rw [hdec]
          unfold matchSigned
          rw [List.mem_append]
          right
          have hm := matchNum12_self_mem htok (ws ++ '%' :: r)
          simpa [List.append_assoc] using hm
        have hsome : ∃ x, matchNumAt ((normalizeText text).drop i) = some x := by
          unfold matchNumAt
          cases hms : matchSigned ((normalizeText text).drop i) with
          | nil => rw [hms] at hmem; simp at hmem
          | cons a l => exact ⟨a, rfl⟩
        obtain ⟨x, hx⟩ := hsome
        exact pyFindall_ne_nil matchNumAt_shrinks (normalizeText text).length _
          le_rfl i x hx hnums
    | cons n0 rest =>
      obtain ⟨i, r, hi, -⟩ := pyFindall_head matchNumAt_shrinks
        (normalizeText text).length _ le_rfl n0 rest hnums
      obtain ⟨-, htok⟩ := matchNumAt_sound hi
      obtain ⟨t0, ht0⟩ := Option.isSome_iff_exists.mp (parseFloat_isSome htok)
      refine ⟨t0, ?_⟩
      rw [parse_numbers_def, ht, hnums]
      simpa using ht0

/-- Witness for C9 on `"55%"`, where both readings are 55. -/
theorem hum_implies_temp_witness :
    ∃ t, (_parse_numbers ('5' :: '5' :: '%' :: [])).1 = some t :=
  hum_implies_temp ('5' :: '5' :: '%' :: []) 55 (by
    simp +decide [_parse_numbers, tempFromPattern, humFromPattern, normalizeText, pyFindall,
      findallAux, matchTempAt, matchHumAt, matchNumAt, matchSepNum, sepTarget, labelRests,
      stripPrefixCI, matchSigned, matchNum12, matchDigits12, skipSpacesPercent, isSpaceChar,
      parseFloat, parseUnsigned, digitsToNat?])

/-- C2 is false as stated: on `"55 %"` the humidity-pattern step
extracts 55 although no 1-2-digit number is immediately followed by a
percent sign -- a space intervenes, which the code's `\s*` accepts but
the claim's "no intervening characters" forbids (the spec-worded
immediate matcher finds nothing in this text). -/
theorem hum_pattern_counterexample :
    humFromPattern ('5' :: '5' :: ' ' :: '%' :: []) = some 55 ∧
    specHumImmediateFirst (normalizeText ('5' :: '5' :: ' ' :: '%' :: [])) = none := by
  constructor
  · simp +decide [humFromPattern, normalizeText, pyFindall, findallAux, matchHumAt,
      matchNum12, matchDigits12, skipSpacesPercent, isSpaceChar, parseFloat,
      parseUnsigned, digitsToNat?]
  · decide

/-- C2 amended: the humidity-pattern step yields a value exactly when a
1-2-digit number (optional 1-2 decimal digits) is followed by optional
whitespace and then a percent sign; the occurrence used is the
leftmost one, and the value is `float` of its captured group. -/
theorem hum_pattern_first (text : List Char) (h : ℚ)
    (hh : humFromPattern text = some h) :
    ∃ pre g ws rest,
      normalizeText text = pre ++ (g ++ ws ++ '%' :: rest) ∧
      NumToken g ∧ (∀ c ∈ ws, isSpaceChar c) ∧ parseFloat g = some h ∧
      ∀ pre2 g2 ws2 rest2,
        normalizeText text = pre2 ++ (g2 ++ ws2 ++ '%' :: rest2) →
        NumToken g2 → (∀ c ∈ ws2, isSpaceChar c) →
        pre.length ≤ pre2.length := by
  cases hfa : pyFindall matchHumAt (normalizeText text) with
  | nil =>
    unfold humFromPattern at hh
    rw [hfa] at hh
    simp at hh
  | cons g gs =>
    have hpf : parseFloat g = some h := by
      unfold humFromPattern at hh
      rw [hfa] at hh
      exact hh
    obtain ⟨i, r, hi, hlt⟩ := pyFindall_head matchHumAt_shrinks
      (normalizeText text).length _ le_rfl g gs hfa
    obtain ⟨ws, hdec, htok, hws⟩ := matchHumAt_sound hi
    have hilt : i < (normalizeText text).length := by
      have hlend := congrArg List.length hdec
      rw [List.length_drop] at hlend
      simp only [List.length_append, List.length_cons] at hlend
      omega
    have htake : ((normalizeText text).take i).length = i := by
      rw [List.length_take]
      omega
    refine ⟨(normalizeText text).take i, g, ws, r, ?_, htok, hws, hpf, ?_⟩
    · conv_lhs => rw [← List.take_append_drop i (normalizeText text)]
      rw [hdec]
    · intro pre2 g2 ws2 rest2 hdec2 htok2 hws2
      by_contra hcon
      push_neg at hcon
      have hj : pre2.length < i := by omega
      have hdrop2 : (normalizeText text).drop pre2.length = g2 ++ ws2 ++ '%' :: rest2 := by
        rw [hdec2]
        exact List.drop_left pre2 (g2 ++ ws2 ++ '%' :: rest2)
      have hnone := hlt pre2.length hj
      rw [hdrop2] at hnone
      have hs := matchHumAt_complete g2 ws2 rest2 htok2 hws2
      rw [hnone] at hs
      simp at hs

/-- Witness for C2 amended at `"61 %"` with humidity 61. -/
theorem hum_pattern_first_witness :
    ∃ pre g ws rest,
      normalizeText ('6' :: '1' :: ' ' :: '%' :: []) = pre ++ (g ++ ws ++ '%' :: rest) ∧
      NumToken g ∧ (∀ c ∈ ws, isSpaceChar c) ∧ parseFloat g = some 61 ∧
      ∀ pre2 g2 ws2 rest2,
        normalizeText ('6' :: '1' :: ' ' :: '%' :: []) = pre2 ++ (g2 ++ ws2 ++ '%' :: rest2) →
        NumToken g2 → (∀ c ∈ ws2, isSpaceChar c) →
        pre.length ≤ pre2.length :=
  hum_pattern_first ('6' :: '1' :: ' ' :: '%' :: []) 61 (by
    simp +decide [humFromPattern, normalizeText, pyFindall, findallAux, matchHumAt,
      matchNum12, matchDigits12, skipSpacesPercent, isSpaceChar, parseFloat,
      parseUnsigned, digitsToNat?])
